import Mathlib

/-!
# Verification of the ipfs-car pack/unpack core and CLI dispatch

A shallow embedding of the ipfs-car tool: the content-addressing (CID)
module, the chunker, the DAG builder (packer), the CAR archive writer and
reader, the DAG walker (unpacker), and the CLI flag-dispatch logic of
`src/cli/cli.ts`.  Bytes are modelled as `List Nat`; the content digest is
modelled as an injective (collision-free) function of the bytes, which is
the idealization under which content addressing is meaningful.
-/

namespace IpfsCar

/-! ## CID module (spec 4.1, 3)

Modelled from the spec: the CID module itself is not under `src/` (only the
CLI is); a CID is a (version, codec, hash-function-id, digest-length,
digest-bytes) record, and `computeCID` is deterministic with the digest
treated as a black box; we idealize the digest as injective. -/

/-- Modelled from the spec: the black-box cryptographic digest of 4.1,
idealized as a collision-free (injective) function of the input bytes. -/
def hashDigest (bs : List Nat) : List Nat := bs

/-- A content identifier: version, codec tag, hash-function id and digest
(the digest length field of the binary layout is `digest.length`). -/
structure CID where
  version : Nat
  codec : Nat
  hashId : Nat
  digest : List Nat
deriving DecidableEq, Repr

/-- Modelled from the spec: `computeCID(bytes) -> CID`, deterministic and
side-effect free (4.1), with fixed version/codec/hash ids. -/
def computeCID (bs : List Nat) : CID :=
  { version := 1, codec := 113, hashId := 18, digest := hashDigest bs }

theorem computeCID_injective : Function.Injective computeCID := by
  intro a b h
  simpa [computeCID, hashDigest, CID.mk.injEq] using h

/-- A block: an immutable (CID, bytes) pair (spec 3). -/
structure Block where
  cid : CID
  bytes : List Nat
deriving DecidableEq, Repr

/-- Build a block from its bytes, computing the CID (content-addressing). -/
def mkBlock (bs : List Nat) : Block := ⟨computeCID bs, bs⟩

/-! ## Chunker (spec 4.2)

Modelled from the spec: fixed maximum chunk size; every chunk except
possibly the last equals that size; an empty file yields exactly one
zero-length chunk. -/

/-- The configured fixed maximum chunk size (256 KiB). -/
def chunkSize : Nat := 262144

/-- Modelled from the spec: `chunk(byteStream) -> sequence of byte spans`,
the default fixed-size chunking policy of 4.2. -/
def chunk (bs : List Nat) : List (List Nat) :=
  if h : bs.length ≤ chunkSize then [bs]
  else bs.take chunkSize :: chunk (bs.drop chunkSize)
termination_by bs.length
decreasing_by
  simp only [List.length_drop]
  have : 0 < chunkSize := by decide
  omega

theorem chunk_ne_nil (bs : List Nat) : chunk bs ≠ [] := by
  rw [chunk]
  split <;> simp

theorem chunk_flatten (bs : List Nat) : (chunk bs).flatten = bs := by
  induction bs using chunk.induct with
  | case1 bs h => rw [chunk]; simp [h]
  | case2 bs h ih =>
      rw [chunk]
      simp only [h, dite_false, List.flatten_cons, ih, List.take_append_drop]

theorem dropLast_cons_ne_nil {α : Type} (a : α) {l : List α} (h : l ≠ []) :
    (a :: l).dropLast = a :: l.dropLast := by
  cases l with
  | nil => exact absurd rfl h
  | cons b t => exact List.dropLast_cons₂ ..

theorem chunk_dropLast_length (bs : List Nat) :
    ∀ c ∈ (chunk bs).dropLast, c.length = chunkSize := by
  induction bs using chunk.induct with
  | case1 bs h => rw [chunk]; simp [h]
  | case2 bs h ih =>
      rw [chunk]
      simp only [h, dite_false]
      intro c hc
      rw [dropLast_cons_ne_nil _ (chunk_ne_nil _)] at hc
      rcases List.mem_cons.mp hc with rfl | htail
      · simp only [List.length_take]
        omega
      · exact ih c htail

theorem chunk_le_chunkSize (bs : List Nat) :
    ∀ c ∈ chunk bs, c.length ≤ chunkSize := by
  induction bs using chunk.induct with
  | case1 bs h => rw [chunk]; simpa [h] using h
  | case2 bs h ih =>
      rw [chunk]
      simp only [h, dite_false, List.mem_cons]
      rintro c (rfl | hc)
      · simp only [List.length_take]; omega
      · exact ih c hc

theorem chunk_empty_iff (bs : List Nat) :
    ∀ c ∈ chunk bs, c = [] → bs = [] := by
  induction bs using chunk.induct with
  | case1 bs h =>
      rw [chunk]; simp only [h, dite_true, List.mem_singleton]
      rintro c rfl h; exact h
  | case2 bs h ih =>
      rw [chunk]
      simp only [h, dite_false, List.mem_cons]
      rintro c (rfl | hc) hce
      · exfalso
        have : (bs.take chunkSize).length = 0 := by rw [hce]; rfl
        simp only [List.length_take] at this
        have hpos : 0 < chunkSize := by decide
        omega
      · exfalso
        have hbs : bs.drop chunkSize = [] := ih c hc hce
        have : bs.length - chunkSize = 0 := by
          simpa [List.length_drop] using congrArg List.length hbs
        omega

theorem chunk_nil : chunk [] = [[]] := by rw [chunk]; simp [chunkSize]

/-! ## DAG nodes and their block encoding (spec 3, 9)

Modelled from the spec: the polymorphic DAG node is a tagged variant
(File-leaf / File-branch / Directory) with an explicit discriminant
persisted in the block's encoded form (9); a File-branch holds ordered
(child-CID, cumulative-byte-length) pairs, a Directory holds ordered
(entry-name, child-CID, entry-kind) triples (3).  Entry names are byte
strings; entry kind 0 is a file, 1 is a directory. -/

inductive DagNode where
  | fileLeaf (content : List Nat)
  | fileBranch (links : List (CID × Nat))
  | directory (entries : List (List Nat × CID × Nat))
deriving DecidableEq, Repr

/-- CID binary layout (spec 6): version, codec, hash-function-id,
digest-length, digest-bytes. -/
def encodeCID (c : CID) : List Nat :=
  c.version :: c.codec :: c.hashId :: c.digest.length :: c.digest

def encodeLink (l : CID × Nat) : List Nat := encodeCID l.1 ++ [l.2]

def encodeEntry (e : List Nat × CID × Nat) : List Nat :=
  e.1.length :: (e.1 ++ encodeCID e.2.1 ++ [e.2.2])

/-- Modelled from the spec: serialize a DAG node into its block bytes, with
an explicit leading discriminant (9); sequences are length-prefixed. -/
def encodeNode : DagNode → List Nat
  | .fileLeaf content => 0 :: content
  | .fileBranch links => 1 :: links.length :: (links.map encodeLink).flatten
  | .directory entries => 2 :: entries.length :: (entries.map encodeEntry).flatten

/-! ### Binary readers -/

def readByte : List Nat → Option (Nat × List Nat)
  | [] => none
  | b :: rest => some (b, rest)

def readN (n : Nat) (bs : List Nat) : Option (List Nat × List Nat) :=
  if n ≤ bs.length then some (bs.take n, bs.drop n) else none

def readCID (bs : List Nat) : Option (CID × List Nat) := do
  let (v, bs) ← readByte bs
  let (cd, bs) ← readByte bs
  let (h, bs) ← readByte bs
  let (dl, bs) ← readByte bs
  let (d, bs) ← readN dl bs
  pure (⟨v, cd, h, d⟩, bs)

def readLink (bs : List Nat) : Option ((CID × Nat) × List Nat) := do
  let (c, bs) ← readCID bs
  let (n, bs) ← readByte bs
  pure ((c, n), bs)

def readEntry (bs : List Nat) : Option ((List Nat × CID × Nat) × List Nat) := do
  let (n, bs) ← readByte bs
  let (nm, bs) ← readN n bs
  let (c, bs) ← readCID bs
  let (k, bs) ← readByte bs
  pure ((nm, c, k), bs)

def readMany {α : Type} (r : List Nat → Option (α × List Nat)) :
    Nat → List Nat → Option (List α × List Nat)
  | 0, bs => some ([], bs)
  | n + 1, bs => do
      let (a, bs) ← r bs
      let (as, bs) ← readMany r n bs
      pure (a :: as, bs)

/-- Modelled from the spec: decode a block's bytes back into a DAG node,
dispatching on the persisted discriminant (9); `none` on malformed bytes. -/
def decodeNode : List Nat → Option DagNode
  | 0 :: content => some (.fileLeaf content)
  | 1 :: n :: rest =>
      match readMany readLink n rest with
      | some (links, []) => some (.fileBranch links)
      | _ => none
  | 2 :: n :: rest =>
      match readMany readEntry n rest with
      | some (entries, []) => some (.directory entries)
      | _ => none
  | _ => none

theorem readN_append (l rest : List Nat) : readN l.length (l ++ rest) = some (l, rest) := by
  simp [readN]

theorem readCID_encode (c : CID) (rest : List Nat) :
    readCID (encodeCID c ++ rest) = some (c, rest) := by
  simp [readCID, encodeCID, readByte, readN_append, bind, Option.bind]

theorem readLink_encode (l : CID × Nat) (rest : List Nat) :
    readLink (encodeLink l ++ rest) = some (l, rest) := by
  simp [readLink, encodeLink, readCID_encode, readByte, bind, Option.bind]

theorem readEntry_encode (e : List Nat × CID × Nat) (rest : List Nat) :
    readEntry (encodeEntry e ++ rest) = some (e, rest) := by
  obtain ⟨nm, c, k⟩ := e
  simp [readEntry, encodeEntry, readByte, bind, Option.bind, pure, readN_append,
    readCID_encode, List.append_assoc]

theorem readMany_encode {α : Type} (r : List Nat → Option (α × List Nat))
    (enc : α → List Nat)
    (hr : ∀ (a : α) (rest : List Nat), r (enc a ++ rest) = some (a, rest)) :
    ∀ (xs : List α) (rest : List Nat),
      readMany r xs.length ((xs.map enc).flatten ++ rest) = some (xs, rest) := by
  intro xs
  induction xs with
  | nil => intro rest; simp [readMany]
  | cons x xs ih =>
      intro rest
      simp only [List.map_cons, List.flatten_cons, List.length_cons, readMany,
        List.append_assoc, hr, bind, Option.bind, ih, pure]

theorem decodeNode_encodeNode (nd : DagNode) : decodeNode (encodeNode nd) = some nd := by
  cases nd with
  | fileLeaf content => rfl
  | fileBranch links =>
      have h := readMany_encode readLink encodeLink readLink_encode links []
      simp only [List.append_nil] at h
      simp [encodeNode, decodeNode, h]
  | directory entries =>
      have h := readMany_encode readEntry encodeEntry readEntry_encode entries []
      simp only [List.append_nil] at h
      simp [encodeNode, decodeNode, h]

/-! ## File trees and the DAG builder (spec 4.3)

Modelled from the spec: `pack` does a depth-first traversal; for each file
it chunks, emits one File-leaf block per chunk, and (when more than one
chunk) a File-branch block whose links carry cumulative byte lengths; for
each directory it packs children first (blocks are emitted before the node
that references them) and then emits a Directory block listing
(name, child-CID, kind) in traversal order. -/

mutual
inductive FileTree : Type where
  | file (name : List Nat) (content : List Nat) : FileTree
  | dir (name : List Nat) (children : FileTreeList) : FileTree
deriving DecidableEq, Repr

inductive FileTreeList : Type where
  | nil : FileTreeList
  | cons (head : FileTree) (tail : FileTreeList) : FileTreeList
deriving DecidableEq, Repr
end

def FileTree.name : FileTree → List Nat
  | .file nm _ => nm
  | .dir nm _ => nm

/-- Entry kind: 0 for a file, 1 for a directory. -/
def FileTree.kind : FileTree → Nat
  | .file _ _ => 0
  | .dir _ _ => 1

/-- Replace the (externally supplied) name of the tree's root node. -/
def FileTree.withName : FileTree → List Nat → FileTree
  | .file _ c, nm => .file nm c
  | .dir _ ch, nm => .dir nm ch

mutual
def FileTree.depth : FileTree → Nat
  | .file _ _ => 1
  | .dir _ children => children.depthList + 1

def FileTreeList.depthList : FileTreeList → Nat
  | .nil => 0
  | .cons t ts => max t.depth ts.depthList
end

/-- The leaf block holding one chunk of a file. -/
def leafBlock (c : List Nat) : Block := mkBlock (encodeNode (.fileLeaf c))

/-- File-branch links: one (leaf CID, cumulative byte length) pair per
chunk, in chunk order, accumulating from `acc`. -/
def linksOf (acc : Nat) : List (List Nat) → List (CID × Nat)
  | [] => []
  | c :: cs => ((leafBlock c).cid, acc + c.length) :: linksOf (acc + c.length) cs

/-- Modelled from the spec: pack one file's content (4.3): chunk it, emit a
leaf block per chunk; with more than one chunk also a File-branch block,
whose CID identifies the file; with exactly one chunk the leaf's CID does. -/
def packFile (content : List Nat) : CID × List Block :=
  let chunks := chunk content
  let leaves := chunks.map leafBlock
  match chunks with
  | [c] => ((leafBlock c).cid, leaves)
  | _ =>
      let branch := mkBlock (encodeNode (.fileBranch (linksOf 0 chunks)))
      (branch.cid, leaves ++ [branch])

mutual
/-- Modelled from the spec: `pack(treeRoot) -> (rootCID, blockStream)`,
depth-first, children's blocks emitted before the referencing node (4.3). -/
def packTree : FileTree → CID × List Block
  | .file _ content => packFile content
  | .dir _ children =>
      let (entries, blocks) := packChildren children
      let b := mkBlock (encodeNode (.directory entries))
      (b.cid, blocks ++ [b])

def packChildren : FileTreeList → List (List Nat × CID × Nat) × List Block
  | .nil => ([], [])
  | .cons t ts =>
      let (c, bs) := packTree t
      let (entries, rest) := packChildren ts
      ((t.name, c, t.kind) :: entries, bs ++ rest)
end

/-- A block list satisfies the content-addressing invariant when every
block's CID is the CID of its bytes (spec 3, claim C2). -/
def contentAddressed (blocks : List Block) : Prop :=
  ∀ b ∈ blocks, b.cid = computeCID b.bytes

mutual
theorem packTree_contentAddressed (t : FileTree) : contentAddressed (packTree t).2 := by
  cases t with
  | file nm content =>
      intro b hb
      simp only [packTree, packFile] at hb
      split at hb
      · simp only [List.mem_map] at hb
        obtain ⟨c, -, rfl⟩ := hb
        rfl
      · rcases List.mem_append.mp hb with hl | hr
        · simp only [List.mem_map] at hl
          obtain ⟨c, -, rfl⟩ := hl
          rfl
        · simp only [List.mem_singleton] at hr
          subst hr; rfl
  | dir nm children =>
      intro b hb
      simp only [packTree] at hb
      rcases List.mem_append.mp hb with hl | hr
      · exact packChildren_contentAddressed children b hl
      · simp only [List.mem_singleton] at hr
        subst hr; rfl

theorem packChildren_contentAddressed (ts : FileTreeList) :
    contentAddressed (packChildren ts).2 := by
  cases ts with
  | nil => intro b hb; simp [packChildren] at hb
  | cons t ts =>
      intro b hb
      simp only [packChildren] at hb
      rcases List.mem_append.mp hb with hl | hr
      · exact packTree_contentAddressed t b hl
      · exact packChildren_contentAddressed ts b hr
end

/-! ## DAG walker (spec 4.6)

Modelled from the spec: the walker builds an index of CID -> Block over the
whole block stream and resolves each node by index lookup; a File (leaf or
branch) becomes the concatenation of its chunk bytes in declared order, a
Directory recurses into its entries.  Recursion depth is bounded by fuel
(the real DAG is acyclic; any fuel at least the tree depth suffices). -/

/-- Index lookup: the first block with the given CID, as in spec 4.6's
CID -> Block index. -/
def lookup (blocks : List Block) (c : CID) : Option (List Nat) :=
  (blocks.find? (fun b => b.cid == c)).map Block.bytes

/-- Resolve a File-branch's links to leaf blocks and concatenate their
chunk bytes in declared order (spec 4.6). -/
def resolveLinks (blocks : List Block) : List (CID × Nat) → Option (List Nat)
  | [] => some []
  | (c, _) :: rest =>
      match lookup blocks c with
      | none => none
      | some bs =>
          match decodeNode bs with
          | some (.fileLeaf content) =>
              match resolveLinks blocks rest with
              | some more => some (content ++ more)
              | none => none
          | _ => none

mutual
/-- Modelled from the spec: walk one root CID back into a file tree
(spec 4.6), giving the root node the externally supplied name `nm`. -/
def walkCID (blocks : List Block) : Nat → List Nat → CID → Option FileTree
  | 0, _, _ => none
  | fuel + 1, nm, c =>
      match lookup blocks c with
      | none => none
      | some bs =>
          match decodeNode bs with
          | none => none
          | some (.fileLeaf content) => some (.file nm content)
          | some (.fileBranch links) =>
              match resolveLinks blocks links with
              | none => none
              | some content => some (.file nm content)
          | some (.directory entries) =>
              match walkEntries blocks fuel entries with
              | none => none
              | some children => some (.dir nm children)
termination_by fuel _ _ => (fuel, 0)

def walkEntries (blocks : List Block) :
    Nat → List (List Nat × CID × Nat) → Option FileTreeList
  | _, [] => some .nil
  | fuel, (nm, c, _) :: rest =>
      match walkCID blocks fuel nm c with
      | none => none
      | some t =>
          match walkEntries blocks fuel rest with
          | none => none
          | some ts => some (.cons t ts)
termination_by fuel entries => (fuel, entries.length + 1)
end

theorem lookup_mkBlock {blocks : List Block} (hca : contentAddressed blocks)
    {bs : List Nat} (hmem : mkBlock bs ∈ blocks) :
    lookup blocks (computeCID bs) = some bs := by
  have hsome : (blocks.find? (fun b => b.cid == computeCID bs)).isSome := by
    rw [List.find?_isSome]
    exact ⟨mkBlock bs, hmem, by simp [mkBlock]⟩
  obtain ⟨b, hfind⟩ := Option.isSome_iff_exists.mp hsome
  have hp := List.find?_some hfind
  have hbmem : b ∈ blocks := List.mem_of_find?_eq_some hfind
  have hcid : b.cid = computeCID bs := by simpa using hp
  have hbytes : b.bytes = bs := computeCID_injective ((hca b hbmem).symm.trans hcid)
  simp [lookup, hfind, hbytes]

theorem FileTree.withName_name (t : FileTree) : t.withName t.name = t := by
  cases t <;> rfl

theorem FileTree.depth_pos (t : FileTree) : 1 ≤ t.depth := by
  cases t <;> simp [FileTree.depth]

theorem resolveLinks_linksOf (blocks : List Block) (hca : contentAddressed blocks) :
    ∀ (chunks : List (List Nat)) (acc : Nat),
      (∀ c ∈ chunks, leafBlock c ∈ blocks) →
      resolveLinks blocks (linksOf acc chunks) = some chunks.flatten := by
  intro chunks
  induction chunks with
  | nil => intro acc _; simp [linksOf, resolveLinks]
  | cons c cs ih =>
      intro acc hmem
      have hlk : lookup blocks (leafBlock c).cid = some (encodeNode (.fileLeaf c)) :=
        lookup_mkBlock hca (hmem c (List.mem_cons_self ..))
      simp only [linksOf, resolveLinks, hlk, decodeNode_encodeNode,
        ih (acc + c.length) (fun x hx => hmem x (List.mem_cons_of_mem _ hx)),
        List.flatten_cons]

theorem walkCID_packFile (content : List Nat) (blocks : List Block) (fuel : Nat)
    (nm : List Nat) (hca : contentAddressed blocks)
    (hsub : ∀ b ∈ (packFile content).2, b ∈ blocks) :
    walkCID blocks (fuel + 1) nm (packFile content).1 = some (.file nm content) := by
  have hflat := chunk_flatten content
  rcases hone : chunk content with - | ⟨c, rest⟩
  · exact absurd hone (chunk_ne_nil content)
  rcases rest with - | ⟨c2, cs⟩
  · -- single chunk: the file's CID is the leaf's CID
    have hc : c = content := by
      rw [hone] at hflat; simpa using hflat
    subst hc
    have hmem : leafBlock c ∈ blocks := by
      apply hsub
      simp [packFile, hone]
    have hlk : lookup blocks (leafBlock c).cid = some (encodeNode (.fileLeaf c)) :=
      lookup_mkBlock hca hmem
    simp [packFile, hone, walkCID, hlk, decodeNode_encodeNode]
  · -- several chunks: the file's CID is the File-branch's CID
    have hleaves : ∀ x ∈ chunk content, leafBlock x ∈ blocks := by
      intro x hx
      apply hsub
      simp only [packFile, hone, List.mem_append]
      rw [hone] at hx
      exact Or.inl (List.mem_map_of_mem leafBlock hx)
    have hbranch :
        mkBlock (encodeNode (.fileBranch (linksOf 0 (chunk content)))) ∈ blocks := by
      apply hsub
      simp [packFile, hone]
    have hlk := lookup_mkBlock hca hbranch
    have hres := resolveLinks_linksOf blocks hca (chunk content) 0 hleaves
    rw [hflat] at hres
    rw [hone] at hres hbranch hlk
    simp [packFile, hone, walkCID, mkBlock, hlk, decodeNode_encodeNode, hres]

mutual
theorem walkCID_packTree (t : FileTree) (blocks : List Block) (fuel : Nat) (nm : List Nat)
    (hca : contentAddressed blocks)
    (hsub : ∀ b ∈ (packTree t).2, b ∈ blocks)
    (hfuel : t.depth ≤ fuel) :
    walkCID blocks fuel nm (packTree t).1 = some (t.withName nm) := by
  obtain ⟨f, rfl⟩ : ∃ f, fuel = f + 1 := by
    cases fuel with
    | zero => exact absurd (le_trans t.depth_pos hfuel) (by simp)
    | succ f => exact ⟨f, rfl⟩
  cases t with
  | file nm0 content =>
      exact walkCID_packFile content blocks f nm hca hsub
  | dir nm0 children =>
      have hdir :
          mkBlock (encodeNode (.directory (packChildren children).1)) ∈ blocks := by
        apply hsub
        simp [packTree]
      have hlk := lookup_mkBlock hca hdir
      have hrec : walkEntries blocks f (packChildren children).1 = some children := by
        apply walkEntries_packChildren children blocks f hca
        · intro b hb
          apply hsub
          simp only [packTree, List.mem_append]
          exact Or.inl hb
        · have : children.depthList + 1 ≤ f + 1 := by
            simpa [FileTree.depth] using hfuel
          omega
      simp [packTree, walkCID, mkBlock, hlk, decodeNode_encodeNode, hrec, FileTree.withName]

theorem walkEntries_packChildren (ts : FileTreeList) (blocks : List Block) (fuel : Nat)
    (hca : contentAddressed blocks)
    (hsub : ∀ b ∈ (packChildren ts).2, b ∈ blocks)
    (hfuel : ts.depthList ≤ fuel) :
    walkEntries blocks fuel (packChildren ts).1 = some ts := by
  cases ts with
  | nil => simp [packChildren, walkEntries]
  | cons t ts =>
      have hmax : t.depth ≤ fuel ∧ ts.depthList ≤ fuel := by
        constructor <;>
          (first
            | exact le_trans (le_max_left ..) (by simpa [FileTreeList.depthList] using hfuel)
            | exact le_trans (le_max_right ..) (by simpa [FileTreeList.depthList] using hfuel))
      have hhead : walkCID blocks fuel t.name (packTree t).1 = some t := by
        rw [walkCID_packTree t blocks fuel t.name hca
          (fun b hb => hsub b (by simp only [packChildren, List.mem_append]; exact Or.inl hb))
          hmax.1]
        rw [FileTree.withName_name]
      have htail : walkEntries blocks fuel (packChildren ts).1 = some ts :=
        walkEntries_packChildren ts blocks fuel hca
          (fun b hb => hsub b (by simp only [packChildren, List.mem_append]; exact Or.inr hb))
          hmax.2
      simp [packChildren, walkEntries, hhead, htail]
end

/-! ## Archive writer and reader (spec 4.4, 4.5, 6)

Modelled from the spec: the container is a length-prefixed header frame
(format version and root CIDs) followed by length-prefixed block frames of
CID bytes immediately followed by content bytes; the reader re-splits the
frames, recomputes each block's CID from its content and fails with
`IntegrityError` on mismatch, `FormatError` on malformed framing. -/

inductive ArchiveError where
  | formatError
  | integrityError
deriving DecidableEq, Repr

/-- A length-prefixed framing unit (spec 6's varint length prefix). -/
def frame (payload : List Nat) : List Nat := payload.length :: payload

/-- Header payload: format version 1 and the root-CID list (spec 6). -/
def encodeHeader (roots : List CID) : List Nat :=
  1 :: roots.length :: (roots.map encodeCID).flatten

/-- A block frame's payload: CID bytes immediately followed by content. -/
def blockFrame (b : Block) : List Nat := frame (encodeCID b.cid ++ b.bytes)

/-- Modelled from the spec: `writeArchive(rootCIDs, blockStream)` (4.4):
header frame, then one frame per block, in a single forward pass. -/
def writeArchive (roots : List CID) (blocks : List Block) : List Nat :=
  frame (encodeHeader roots) ++ (blocks.map blockFrame).flatten

def readFrame : List Nat → Option (List Nat × List Nat)
  | [] => none
  | n :: rest => readN n rest

def decodeHeader (bs : List Nat) : Option (List CID) :=
  match bs with
  | 1 :: n :: rest =>
      match readMany readCID n rest with
      | some (roots, []) => some roots
      | _ => none
  | _ => none

def parseBlockFrame (payload : List Nat) : Option Block :=
  match readCID payload with
  | some (c, content) => some ⟨c, content⟩
  | none => none

/-- Modelled from the spec: parse the block frames after the header (4.5):
for each frame, split CID bytes from content bytes, recompute the CID from
the content and fail with `IntegrityError` if it does not match the
declared one; malformed or truncated framing is a `FormatError`. -/
def readBlocks : List Nat → Except ArchiveError (List Block)
  | [] => .ok []
  | n :: rest =>
      if n ≤ rest.length then
        match parseBlockFrame (rest.take n) with
        | none => .error .formatError
        | some b =>
            if b.cid = computeCID b.bytes then
              match readBlocks (rest.drop n) with
              | .ok blocks => .ok (b :: blocks)
              | .error e => .error e
            else .error .integrityError
      else .error .formatError
termination_by bs => bs.length
decreasing_by
  simp only [List.length_drop, List.length_cons]
  omega

/-- Modelled from the spec: `readArchive(source) -> (rootCIDs, blockStream)`
(4.5): parse the header frame, then the verified block stream. -/
def readArchive (bs : List Nat) : Except ArchiveError (List CID × List Block) :=
  match readFrame bs with
  | none => .error .formatError
  | some (hdr, rest) =>
      match decodeHeader hdr with
      | none => .error .formatError
      | some roots =>
          match readBlocks rest with
          | .ok blocks => .ok (roots, blocks)
          | .error e => .error e

theorem readFrame_frame (p rest : List Nat) : readFrame (frame p ++ rest) = some (p, rest) := by
  simp [frame, readFrame, readN_append]

theorem decodeHeader_encodeHeader (roots : List CID) :
    decodeHeader (encodeHeader roots) = some roots := by
  have h := readMany_encode readCID encodeCID readCID_encode roots []
  simp only [List.append_nil] at h
  simp [decodeHeader, encodeHeader, h]

theorem readBlocks_cons_valid (b : Block) (rest : List Nat)
    (hb : b.cid = computeCID b.bytes) :
    readBlocks (blockFrame b ++ rest) =
      match readBlocks rest with
      | .ok blocks => .ok (b :: blocks)
      | .error e => .error e := by
  have hlen : (encodeCID b.cid ++ b.bytes).length ≤ ((encodeCID b.cid ++ b.bytes) ++ rest).length := by
    simp
  have heta : (⟨b.cid, b.bytes⟩ : Block) = b := rfl
  rw [blockFrame, frame, List.cons_append, readBlocks]
  simp only [hlen, if_true]
  rw [List.take_left, List.drop_left]
  simp only [parseBlockFrame, readCID_encode]
  simp only [heta]
  rw [if_pos hb]

theorem readBlocks_cons_corrupt (b : Block) (rest : List Nat)
    (hb : b.cid ≠ computeCID b.bytes) :
    readBlocks (blockFrame b ++ rest) = .error .integrityError := by
  have hlen : (encodeCID b.cid ++ b.bytes).length ≤ ((encodeCID b.cid ++ b.bytes) ++ rest).length := by
    simp
  rw [blockFrame, frame, List.cons_append, readBlocks]
  simp only [hlen, if_true]
  rw [List.take_left]
  simp [parseBlockFrame, readCID_encode, hb]

theorem readBlocks_flatten (blocks : List Block) (hca : contentAddressed blocks) :
    readBlocks (blocks.map blockFrame).flatten = .ok blocks := by
  induction blocks with
  | nil => simp [readBlocks]
  | cons b bs ih =>
      have hb := hca b (List.mem_cons_self ..)
      have hbs : contentAddressed bs := fun x hx => hca x (List.mem_cons_of_mem _ hx)
      simp only [List.map_cons, List.flatten_cons, readBlocks_cons_valid b _ hb, ih hbs]

theorem readArchive_writeArchive (roots : List CID) (blocks : List Block)
    (hca : contentAddressed blocks) :
    readArchive (writeArchive roots blocks) = .ok (roots, blocks) := by
  simp only [readArchive, writeArchive, readFrame_frame, decodeHeader_encodeHeader,
    readBlocks_flatten blocks hca]

theorem readBlocks_contentAddressed :
    ∀ (bs : List Nat) (blocks : List Block),
      readBlocks bs = .ok blocks → contentAddressed blocks := by
  intro bs
  induction bs using readBlocks.induct with
  | case1 => intro blocks h; rw [readBlocks] at h; simp_all [contentAddressed]
  | case2 => intro blocks h; rw [readBlocks] at h; simp_all [contentAddressed]
  | case3 =>
      intro blocks h
      rw [readBlocks] at h
      simp_all [contentAddressed]
      subst h
      intro x hx
      rcases List.mem_cons.mp hx with rfl | hmem
      · assumption
      · solve_by_elim
  | case4 => intro blocks h; rw [readBlocks] at h; simp_all [contentAddressed]
  | case5 => intro blocks h; rw [readBlocks] at h; simp_all [contentAddressed]
  | case6 =>
      intro blocks h
      rw [readBlocks, if_neg (by omega)] at h
      cases h

theorem readBlocks_corrupt (pre : List Block) (b : Block) (post : List Block)
    (hpre : contentAddressed pre) (hb : b.cid ≠ computeCID b.bytes) :
    readBlocks ((pre ++ b :: post).map blockFrame).flatten = .error .integrityError := by
  induction pre with
  | nil =>
      simp only [List.nil_append, List.map_cons, List.flatten_cons]
      exact readBlocks_cons_corrupt b _ hb
  | cons x xs ih =>
      have hx := hpre x (List.mem_cons_self ..)
      have hxs : contentAddressed xs := fun y hy => hpre y (List.mem_cons_of_mem _ hy)
      simp only [List.cons_append, List.map_cons, List.flatten_cons,
        readBlocks_cons_valid x _ hx, ih hxs]

theorem readArchive_corrupt (roots : List CID) (pre : List Block) (b : Block)
    (post : List Block) (hpre : contentAddressed pre)
    (hb : b.cid ≠ computeCID b.bytes) :
    readArchive (writeArchive roots (pre ++ b :: post)) = .error .integrityError := by
  simp only [readArchive, writeArchive, readFrame_frame, decodeHeader_encodeHeader,
    readBlocks_corrupt pre b post hpre hb]

/-! ## Materialization and root selection (spec 4.6)

Modelled from the spec: materializing writes each reconstructed tree under
its declared name below the output base; a name colliding with an existing
file at the output base is an `IOError` with no auto-renaming; a selected
root that is not among the archive's declared roots is fatal
(`ConstraintError`); only the selected roots' subtrees are written. -/

/-- One written filesystem entry: its path below the output base (a list of
path components) and, for a file, its content (`none` for a directory). -/
abbrev OutEntry := List (List Nat) × Option (List Nat)

mutual
/-- The filesystem entries a tree materializes to below `base` (spec 4.6):
each node is written under its declared name, never renamed. -/
def treeOutputs (base : List (List Nat)) : FileTree → List OutEntry
  | .file nm content => [(base ++ [nm], some content)]
  | .dir nm children => (base ++ [nm], none) :: childOutputs (base ++ [nm]) children

def childOutputs (base : List (List Nat)) : FileTreeList → List OutEntry
  | .nil => []
  | .cons t ts => treeOutputs base t ++ childOutputs base ts
end

inductive WalkError where
  | ioError
  | constraintError
  | integrityError
deriving DecidableEq, Repr

/-- Modelled from the spec: materialize a list of reconstructed trees into
an output base already holding the file names `existing` (spec 4.6): a
name collision with an existing file is an `IOError`, no auto-renaming. -/
def materializeList (existing : List (List Nat)) (base : List (List Nat)) :
    List FileTree → Except WalkError (List OutEntry)
  | [] => .ok []
  | t :: ts =>
      if t.name ∈ existing then .error .ioError
      else
        match materializeList (t.name :: existing) base ts with
        | .ok rest => .ok (treeOutputs base t ++ rest)
        | .error e => .error e

/-- Modelled from the spec: walk each selected root into a tree (root nodes
get the empty name); a root whose block cannot be resolved is an
`IntegrityError` (spec 4.6). -/
def walkRoots (blocks : List Block) (fuel : Nat) : List CID → Except WalkError (List FileTree)
  | [] => .ok []
  | c :: cs =>
      match walkCID blocks fuel [] c with
      | none => .error .integrityError
      | some t =>
          match walkRoots blocks fuel cs with
          | .ok ts => .ok (t :: ts)
          | .error e => .error e

/-- Modelled from the spec: `unpack` with a `selectedRoots` filter
(spec 4.6): a non-empty selection restricts the walk to those roots, which
must be members of the archive's declared root set (else fatal
`ConstraintError`); an empty selection walks all declared roots.  Returns
the filesystem entries written below the output base. -/
def unpackSelected (blocks : List Block) (declared selected : List CID)
    (fuel : Nat) : Except WalkError (List OutEntry) :=
  if selected.all (fun c => declared.contains c) then
    let roots := if selected.isEmpty then declared else selected
    match walkRoots blocks fuel roots with
    | .ok ts => .ok (ts.map (treeOutputs [])).flatten
    | .error e => .error e
  else .error .constraintError

theorem materializeList_collision (base : List (List Nat)) :
    ∀ (ts : List FileTree) (existing : List (List Nat)) (t : FileTree),
      t ∈ ts → t.name ∈ existing →
      materializeList existing base ts = .error .ioError := by
  intro ts
  induction ts with
  | nil => intro existing t ht _; simp at ht
  | cons x xs ih =>
      intro existing t ht hcol
      rcases List.mem_cons.mp ht with rfl | hmem
      · simp [materializeList, hcol]
      · by_cases hx : x.name ∈ existing
        · simp [materializeList, hx]
        · have := ih (x.name :: existing) t hmem (List.mem_cons_of_mem _ hcol)
          simp [materializeList, hx, this]

theorem materializeList_ok_outputs (base : List (List Nat)) :
    ∀ (ts : List FileTree) (existing : List (List Nat)) (outs : List OutEntry),
      materializeList existing base ts = .ok outs →
      outs = (ts.map (treeOutputs base)).flatten := by
  intro ts
  induction ts with
  | nil =>
      intro existing outs h
      simp only [materializeList] at h
      cases h
      simp
  | cons x xs ih =>
      intro existing outs h
      simp only [materializeList] at h
      split at h
      · cases h
      · split at h
        next rest hrest =>
          cases h
          simp only [List.map_cons, List.flatten_cons]
          rw [ih (x.name :: existing) rest hrest]
        next => cases h

/-! ## CLI flag dispatch (src/cli/cli.ts)

Embedded from the source: the meow flag declarations (lines 24-70) and the
`handleInput` dispatch chain (lines 133-173).  A string flag that was not
given is `none`; JavaScript truthiness of a string flag means present and
non-empty. -/

/-- The flags as supplied on the command line, before meow applies the
declared defaults (`none` means the flag was not given). -/
structure RawFlags where
  output : Option String
  pack : Option String
  unpack : Option String
  root : Option (List String)
  list : Option String
  listCids : Option String
  listRoots : Option String
  listFull : Option String
  hash : Option String
  wrapWithDirectory : Option Bool
  verbose : Option Bool
deriving DecidableEq, Repr

/-- The flags as `handleInput` sees them, after meow applied the declared
defaults (cli.ts lines 24-70): only `wrapWithDirectory` (default `true`)
and `verbose` (default `false`) declare defaults. -/
structure Flags where
  output : Option String
  pack : Option String
  unpack : Option String
  root : Option (List String)
  list : Option String
  listCids : Option String
  listRoots : Option String
  listFull : Option String
  hash : Option String
  wrapWithDirectory : Bool
  verbose : Bool
deriving DecidableEq, Repr

/-- meow's default application per the `options.flags` object of cli.ts
(lines 24-70). -/
def applyDefaults (r : RawFlags) : Flags :=
  { output := r.output
    pack := r.pack
    unpack := r.unpack
    root := r.root
    list := r.list
    listCids := r.listCids
    listRoots := r.listRoots
    listFull := r.listFull
    hash := r.hash
    wrapWithDirectory := r.wrapWithDirectory.getD true
    verbose := r.verbose.getD false }

/-- JavaScript truthiness of an optional string: present and non-empty. -/
def truthy : Option String → Bool
  | none => false
  | some s => !(s == "")

/-- The single operation `handleInput` dispatches to (cli.ts 133-173); at
most one is performed per invocation. -/
inductive Action where
  | packFs (input : String) (output : Option String) (wrap : Bool) (verbose : Bool)
  | unpackStreamFs (roots : List String) (output : Option String)
  | unpackFs (input : String) (roots : List String) (output : Option String)
  | listFilesAction (input : String)
  | listRootsAction (input : String)
  | listCidsAction (input : String)
  | listFullAction (input : String)
  | hashCarAction (input : String)
  | unpackStreamNoRoots (output : Option String)
  | helpAndError (msg : String)
deriving DecidableEq, Repr

/-- The `handleInput` dispatch chain (cli.ts 133-173), with `stdinIsTTY`
standing for `process.stdin.isTTY`. -/
def handleInput (flags : Flags) (stdinIsTTY : Bool) : Action :=
  if truthy flags.pack then
    .packFs (flags.pack.getD "") flags.output flags.wrapWithDirectory flags.verbose
  else if flags.unpack ≠ none then
    let roots := flags.root.getD []
    if flags.unpack = some "" then .unpackStreamFs roots flags.output
    else .unpackFs (flags.unpack.getD "") roots flags.output
  else if truthy flags.list then .listFilesAction (flags.list.getD "")
  else if truthy flags.listRoots then .listRootsAction (flags.listRoots.getD "")
  else if truthy flags.listCids then .listCidsAction (flags.listCids.getD "")
  else if truthy flags.listFull then .listFullAction (flags.listFull.getD "")
  else if truthy flags.hash then .hashCarAction (flags.hash.getD "")
  else if !stdinIsTTY then .unpackStreamNoRoots flags.output
  else .helpAndError "--pack or --unpack flag required"

/-! ## The claims -/

/-- C1: For every file tree, packing it, writing the archive, reading it
back (which returns exactly the packed roots and blocks), and walking the
blocks from pack's root CID reproduces the tree: its file names, directory
structure, and byte-exact file contents. -/
theorem claim_roundtrip (t : FileTree) :
    readArchive (writeArchive [(packTree t).1] (packTree t).2) =
      .ok ([(packTree t).1], (packTree t).2) ∧
    walkCID (packTree t).2 t.depth t.name (packTree t).1 = some t := by
  refine ⟨readArchive_writeArchive _ _ (packTree_contentAddressed t), ?_⟩
  rw [walkCID_packTree t (packTree t).2 t.depth t.name (packTree_contentAddressed t)
    (fun _ hb => hb) le_rfl]
  rw [FileTree.withName_name]

/-- C2: Every block emitted by the packer and every block emitted by the
archive reader satisfies the content-addressing invariant: recomputing the
CID from the block's bytes yields exactly the block's declared CID. -/
theorem claim_content_addressing :
    (∀ (t : FileTree), ∀ b ∈ (packTree t).2, b.cid = computeCID b.bytes) ∧
    (∀ (bs : List Nat) (roots : List CID) (blocks : List Block),
      readArchive bs = .ok (roots, blocks) → ∀ b ∈ blocks, b.cid = computeCID b.bytes) := by
  constructor
  · exact fun t => packTree_contentAddressed t
  · intro bs roots blocks h
    simp only [readArchive] at h
    split at h
    · cases h
    · split at h
      · cases h
      · split at h
        · rename_i hrb
          cases h
          exact readBlocks_contentAddressed _ _ hrb
        · cases h

/-- C2 witness: the single block packed from an empty file is
content-addressed. -/
theorem claim_content_addressing_witness :
    (leafBlock []).cid = computeCID (leafBlock []).bytes :=
  claim_content_addressing.1 (.file [] []) (leafBlock [])
    (by simp [packTree, packFile, chunk_nil])

/-- C3: Packing is deterministic: two invocations of pack on the same tree
(same options) produce the same root CID and byte-identical archive
output, and the chunker yields the same chunk boundaries on the same byte
stream. -/
theorem claim_determinism (t1 t2 : FileTree) (h : t1 = t2) :
    (packTree t1).1 = (packTree t2).1 ∧
    writeArchive [(packTree t1).1] (packTree t1).2 =
      writeArchive [(packTree t2).1] (packTree t2).2 ∧
    ∀ bs1 bs2 : List Nat, bs1 = bs2 → chunk bs1 = chunk bs2 := by
  subst h
  exact ⟨rfl, rfl, fun _ _ hb => by rw [hb]⟩

/-- C3 witness: determinism at a concrete one-file tree. -/
theorem claim_determinism_witness :
    (packTree (.file [0] [1])).1 = (packTree (.file [0] [1])).1 :=
  (claim_determinism (.file [0] [1]) (.file [0] [1]) rfl).1

/-- C4: Changing a single byte of a block's content without updating its
declared CID makes `readArchive` fail with `IntegrityError` when that
block's frame is reached (all preceding frames being intact); corruption
is never silently accepted. -/
theorem claim_integrity_detection (roots : List CID) (pre post : List Block) (b : Block)
    (j v : Nat) (hpre : contentAddressed pre) (hb : b.cid = computeCID b.bytes)
    (hj : j < b.bytes.length) (hv : v ≠ b.bytes.getD j 0) :
    readArchive (writeArchive roots (pre ++ ⟨b.cid, b.bytes.set j v⟩ :: post)) =
      .error .integrityError := by
  apply readArchive_corrupt roots pre _ post hpre
  intro hc
  simp only at hc
  have hset : b.bytes.set j v = b.bytes :=
    computeCID_injective ((hb.symm.trans hc).symm)
  apply hv
  have hgd : (b.bytes.set j v).getD j 0 = v := by
    rw [List.getD_eq_getElem _ _ (by simpa using hj)]
    simp [List.getElem_set_self]
  rw [← hgd, hset]

/-- C4 witness: flipping the single content byte of a concrete one-block
archive is rejected with `IntegrityError`. -/
theorem claim_integrity_detection_witness :
    readArchive (writeArchive [] ([] ++ ⟨computeCID [5], ([5] : List Nat).set 0 6⟩ :: [])) =
      .error .integrityError :=
  claim_integrity_detection [] [] [] ⟨computeCID [5], [5]⟩ 0 6
    (fun _ hb => absurd hb (List.not_mem_nil _)) rfl (by decide) (by decide)

/-- C5: Under the default chunking policy every chunk except possibly the
last has exactly the configured maximum size, the chunks concatenate back
to the input (the last holds the remainder), a chunk is empty only for the
empty file, a zero-length file yields exactly one zero-length chunk and
one leaf block, and unpacking reproduces the zero-length file. -/
theorem claim_chunking (bs : List Nat) (nm : List Nat) :
    (∀ c ∈ (chunk bs).dropLast, c.length = chunkSize) ∧
    (∀ c ∈ chunk bs, c.length ≤ chunkSize) ∧
    (chunk bs).flatten = bs ∧
    chunk bs ≠ [] ∧
    (∀ c ∈ chunk bs, c = [] → bs = []) ∧
    chunk [] = [[]] ∧
    (packFile []).2 = [leafBlock []] ∧
    walkCID (packFile []).2 1 nm (packFile []).1 = some (.file nm []) := by
  refine ⟨chunk_dropLast_length bs, chunk_le_chunkSize bs, chunk_flatten bs,
    chunk_ne_nil bs, chunk_empty_iff bs, chunk_nil, ?_, ?_⟩
  · simp [packFile, chunk_nil]
  · exact walkCID_packFile [] (packFile []).2 0 nm
      (packTree_contentAddressed (.file nm [])) (fun _ hb => hb)

/-- C5 witness: chunking a concrete two-byte file. -/
theorem claim_chunking_witness :
    (chunk [7, 8]).flatten = [7, 8] ∧ chunk ([] : List Nat) = [[]] :=
  ⟨(claim_chunking [7, 8] []).2.2.1, (claim_chunking [7, 8] []).2.2.2.2.2.1⟩

/-- C6: When a name to be written collides with an existing file at the
output base, materialization fails with `IOError`; it never auto-renames
(a successful materialization writes every tree under exactly its declared
name). -/
theorem claim_collision_ioerror (existing base : List (List Nat)) (ts : List FileTree)
    (t : FileTree) (hmem : t ∈ ts) (hcol : t.name ∈ existing) :
    materializeList existing base ts = .error .ioError ∧
    ∀ outs, materializeList existing base ts = .ok outs →
      outs = (ts.map (treeOutputs base)).flatten :=
  ⟨materializeList_collision base ts existing t hmem hcol,
   fun outs h => materializeList_ok_outputs base ts existing outs h⟩

/-- C6 witness: a concrete collision with an existing file name fails with
`IOError`. -/
theorem claim_collision_ioerror_witness :
    materializeList [[1]] [] [.file [1] [9]] = .error .ioError :=
  (claim_collision_ioerror [[1]] [] [.file [1] [9]] (.file [1] [9])
    (by decide) (by decide)).1

/-- C7: For an archive holding two independently packed roots, unpacking
with only the second root selected succeeds and writes exactly the second
root's subtree (and hence nothing of the first root's subtree). -/
theorem claim_multi_root_selection (t1 t2 : FileTree) (fuel : Nat)
    (hfuel : t2.depth ≤ fuel) :
    unpackSelected ((packTree t1).2 ++ (packTree t2).2)
      [(packTree t1).1, (packTree t2).1] [(packTree t2).1] fuel =
      .ok (treeOutputs [] (t2.withName [])) := by
  have hca : contentAddressed ((packTree t1).2 ++ (packTree t2).2) := by
    intro b hb
    rcases List.mem_append.mp hb with h1 | h2
    · exact packTree_contentAddressed t1 b h1
    · exact packTree_contentAddressed t2 b h2
  have hwalk : walkCID ((packTree t1).2 ++ (packTree t2).2) fuel [] (packTree t2).1 =
      some (t2.withName []) :=
    walkCID_packTree t2 _ fuel [] hca
      (fun b hb => List.mem_append.mpr (Or.inr hb)) hfuel
  have hsel : ([(packTree t2).1]).all
      (fun c => ([(packTree t1).1, (packTree t2).1]).contains c) = true := by
    simp [List.contains]
  simp [unpackSelected, hsel, walkRoots, hwalk]

/-- C7 witness: selecting the second of two concrete single-file roots
writes exactly the second file. -/
theorem claim_multi_root_selection_witness :
    unpackSelected ((packTree (.file [1] [9])).2 ++ (packTree (.file [2] [8])).2)
      [(packTree (.file [1] [9])).1, (packTree (.file [2] [8])).1]
      [(packTree (.file [2] [8])).1] 1 =
      .ok (treeOutputs [] ((FileTree.file [2] [8]).withName [])) :=
  claim_multi_root_selection (.file [1] [9]) (.file [2] [8]) 1 (by decide)

/-- C8: When the --wrapWithDirectory flag is omitted, meow's declared
default makes `handleInput` pass `wrapWithDirectory = true` to `packToFs`,
so the packed input is wrapped in a synthesized enclosing directory by
default. -/
theorem claim_wrap_default (r : RawFlags) (tty : Bool)
    (hw : r.wrapWithDirectory = none) (hp : truthy r.pack = true) :
    handleInput (applyDefaults r) tty =
      .packFs (r.pack.getD "") r.output true (r.verbose.getD false) := by
  simp [handleInput, applyDefaults, hp, hw]

/-- C8 witness: a concrete pack invocation without --wrapWithDirectory. -/
theorem claim_wrap_default_witness :
    handleInput (applyDefaults ⟨none, some "in", none, none, none, none, none,
      none, none, none, none⟩) true = .packFs "in" none true false :=
  claim_wrap_default ⟨none, some "in", none, none, none, none, none, none,
      none, none, none⟩ true rfl (by decide)

/-- C9: At most one operation is performed per invocation, selected by the
fixed priority pack > unpack > list > listRoots > listCids > listFull >
hash of the `handleInput` chain; whenever a higher-priority flag triggers,
the resulting action is fully determined by it and any lower-priority
flags are ignored. -/
theorem claim_flag_priority (f : Flags) (tty : Bool) :
    (truthy f.pack = true →
      handleInput f tty = .packFs (f.pack.getD "") f.output f.wrapWithDirectory f.verbose) ∧
    (truthy f.pack = false → f.unpack ≠ none →
      handleInput f tty =
        if f.unpack = some "" then .unpackStreamFs (f.root.getD []) f.output
        else .unpackFs (f.unpack.getD "") (f.root.getD []) f.output) ∧
    (truthy f.pack = false → f.unpack = none → truthy f.list = true →
      handleInput f tty = .listFilesAction (f.list.getD "")) ∧
    (truthy f.pack = false → f.unpack = none → truthy f.list = false →
      truthy f.listRoots = true →
      handleInput f tty = .listRootsAction (f.listRoots.getD "")) ∧
    (truthy f.pack = false → f.unpack = none → truthy f.list = false →
      truthy f.listRoots = false → truthy f.listCids = true →
      handleInput f tty = .listCidsAction (f.listCids.getD "")) ∧
    (truthy f.pack = false → f.unpack = none → truthy f.list = false →
      truthy f.listRoots = false → truthy f.listCids = false →
      truthy f.listFull = true →
      handleInput f tty = .listFullAction (f.listFull.getD "")) ∧
    (truthy f.pack = false → f.unpack = none → truthy f.list = false →
      truthy f.listRoots = false → truthy f.listCids = false →
      truthy f.listFull = false → truthy f.hash = true →
      handleInput f tty = .hashCarAction (f.hash.getD "")) := by
  refine ⟨?_, ?_, ?_, ?_, ?_, ?_, ?_⟩
  all_goals intros
  all_goals simp_all [handleInput]

/-- C9 witness: with both --pack and --unpack supplied, pack wins. -/
theorem claim_flag_priority_witness :
    handleInput ⟨none, some "a", some "b", none, none, none, none, none,
      none, true, false⟩ true = .packFs "a" none true false :=
  (claim_flag_priority ⟨none, some "a", some "b", none, none, none, none,
      none, none, true, false⟩ true).1 (by decide)

/-- C10: When no operation flag triggers: --unpack present with an empty
value unpacks a stream from standard input (with the selected roots);
otherwise, with no unpack flag at all, a non-TTY stdin unpacks a stream
from standard input, and a TTY shows the help text and throws
'--pack or --unpack flag required'. -/
theorem claim_no_op_fallback (f : Flags) (tty : Bool)
    (hp : truthy f.pack = false) (hl : truthy f.list = false)
    (hlr : truthy f.listRoots = false) (hlc : truthy f.listCids = false)
    (hlf : truthy f.listFull = false) (hh : truthy f.hash = false) :
    (f.unpack = some "" →
      handleInput f tty = .unpackStreamFs (f.root.getD []) f.output) ∧
    (f.unpack = none → tty = false →
      handleInput f tty = .unpackStreamNoRoots f.output) ∧
    (f.unpack = none → tty = true →
      handleInput f tty = .helpAndError "--pack or --unpack flag required") := by
  refine ⟨?_, ?_, ?_⟩
  all_goals intros
  all_goals simp_all [handleInput]

/-- C10 witness: no flags and a TTY on stdin shows help and throws. -/
theorem claim_no_op_fallback_witness :
    handleInput ⟨none, none, none, none, none, none, none, none, none,
      true, false⟩ true = .helpAndError "--pack or --unpack flag required" :=
  (claim_no_op_fallback ⟨none, none, none, none, none, none, none, none,
      none, true, false⟩ true rfl rfl rfl rfl rfl rfl).2.2 rfl rfl

end IpfsCar
